import Mathlib

/-
Verification of the language-code normalization and plural-forms components of
the Poedit repository (src/language.cpp). Strings are modelled as lists of
characters; ASCII case mappings model the std character functions in the C
locale, which is the range the language-code grammar operates on.
-/

namespace Poedit

/-- ASCII uppercase-letter test, modelling std isupper in the C locale. -/
def isUpperA (c : Char) : Bool := 65 ≤ c.toNat && c.toNat ≤ 90

/-- ASCII lowercase-letter test, modelling std islower in the C locale. -/
def isLowerA (c : Char) : Bool := 97 ≤ c.toNat && c.toNat ≤ 122

/-- ASCII digit test. -/
def isDigitA (c : Char) : Bool := 48 ≤ c.toNat && c.toNat ≤ 57

/-- ASCII letter test. -/
def isAlphaA (c : Char) : Bool := isUpperA c || isLowerA c

/-- ASCII lowercasing, modelling std tolower in the C locale. -/
def tolowerA (c : Char) : Char :=
  if isUpperA c then Char.ofNat (c.toNat + 32) else c

/-- ASCII uppercasing, modelling std toupper in the C locale. -/
def toupperA (c : Char) : Char :=
  if isLowerA c then Char.ofNat (c.toNat - 32) else c

theorem toNat_ofNat_valid (n : Nat) (h : n.isValidChar) : (Char.ofNat n).toNat = n := by
  simp [Char.ofNat, h, Char.ofNatAux, Char.toNat, UInt32.toNat]

theorem char_eq_iff_toNat {a b : Char} : a = b ↔ a.toNat = b.toNat := by
  constructor
  · intro h; rw [h]
  · intro h
    exact Char.ext (UInt32.ext h)

theorem toNat_tolowerA_of_upper {c : Char} (h : isUpperA c = true) :
    (tolowerA c).toNat = c.toNat + 32 := by
  have hb : 65 ≤ c.toNat ∧ c.toNat ≤ 90 := by
    simpa [isUpperA, Bool.and_eq_true, decide_eq_true_eq] using h
  have hv : (c.toNat + 32).isValidChar := by
    left; omega
  simp [tolowerA, h, toNat_ofNat_valid _ hv]

theorem toNat_toupperA_of_lower {c : Char} (h : isLowerA c = true) :
    (toupperA c).toNat = c.toNat - 32 := by
  have hb : 97 ≤ c.toNat ∧ c.toNat ≤ 122 := by
    simpa [isLowerA, Bool.and_eq_true, decide_eq_true_eq] using h
  have hv : (c.toNat - 32).isValidChar := by
    left; omega
  simp [toupperA, h, toNat_ofNat_valid _ hv]

theorem isLowerA_tolowerA {c : Char} (h : isUpperA c = true) :
    isLowerA (tolowerA c) = true := by
  have hb : 65 ≤ c.toNat ∧ c.toNat ≤ 90 := by
    simpa [isUpperA, Bool.and_eq_true, decide_eq_true_eq] using h
  simp [isLowerA, toNat_tolowerA_of_upper h]
  omega

theorem isUpperA_tolowerA {c : Char} (h : isUpperA c = true) :
    isUpperA (tolowerA c) = false := by
  have hb : 65 ≤ c.toNat ∧ c.toNat ≤ 90 := by
    simpa [isUpperA, Bool.and_eq_true, decide_eq_true_eq] using h
  simp [isUpperA, toNat_tolowerA_of_upper h]
  omega

theorem isUpperA_toupperA {c : Char} (h : isLowerA c = true) :
    isUpperA (toupperA c) = true := by
  have hb : 97 ≤ c.toNat ∧ c.toNat ≤ 122 := by
    simpa [isLowerA, Bool.and_eq_true, decide_eq_true_eq] using h
  simp [isUpperA, toNat_toupperA_of_lower h]
  omega

theorem isLowerA_toupperA {c : Char} (h : isLowerA c = true) :
    isLowerA (toupperA c) = false := by
  have hb : 97 ≤ c.toNat ∧ c.toNat ≤ 122 := by
    simpa [isLowerA, Bool.and_eq_true, decide_eq_true_eq] using h
  simp [isLowerA, toNat_toupperA_of_lower h]
  omega

theorem tolowerA_ne_of_upper {c : Char} (d : Char) (h : isUpperA c = true)
    (hd : ¬ (97 ≤ d.toNat ∧ d.toNat ≤ 122)) : tolowerA c ≠ d := by
  have hb : 65 ≤ c.toNat ∧ c.toNat ≤ 90 := by
    simpa [isUpperA, Bool.and_eq_true, decide_eq_true_eq] using h
  intro he
  rw [char_eq_iff_toNat, toNat_tolowerA_of_upper h] at he
  omega

theorem toupperA_ne_of_lower {c : Char} (d : Char) (h : isLowerA c = true)
    (hd : ¬ (65 ≤ d.toNat ∧ d.toNat ≤ 90)) : toupperA c ≠ d := by
  have hb : 97 ≤ c.toNat ∧ c.toNat ≤ 122 := by
    simpa [isLowerA, Bool.and_eq_true, decide_eq_true_eq] using h
  intro he
  rw [char_eq_iff_toNat, toNat_toupperA_of_lower h] at he
  omega

theorem isUpperA_tolowerA_all (c : Char) : isUpperA (tolowerA c) = false := by
  by_cases h : isUpperA c = true
  · exact isUpperA_tolowerA h
  · simp at h
    simp [tolowerA, h]

theorem tolowerA_idem (c : Char) : tolowerA (tolowerA c) = tolowerA c := by
  have h := isUpperA_tolowerA_all c
  conv_lhs => rw [tolowerA]
  simp [h]

/-- Value of tolowerA on the at sign, needed because the variant-lowercasing pass
of TryNormalize also visits the at sign itself. -/
theorem tolowerA_at_iff (c : Char) : tolowerA c = '@' ↔ c = '@' := by
  by_cases h : isUpperA c = true
  · constructor
    · intro he
      exact absurd he (tolowerA_ne_of_upper _ h (by decide))
    · intro he
      rw [he] at h
      simp [isUpperA] at h
  · simp at h
    simp [tolowerA, h]

/-- Dash-to-underscore rewrite done at the top of the TryNormalize loop body. -/
def dashFix (c : Char) : Char := if c = '-' then '_' else c

/-- One step of the case-adjusting loop inside TryNormalize in language.cpp:
given the current upper flag and a character, it returns the updated flag and
the rewritten character (dash to underscore, then case fixups). -/
def normStep (up : Bool) (c : Char) : Bool × Char :=
  if dashFix c = '_' then (true, dashFix c)
  else if isUpperA (dashFix c) && !up then (up, tolowerA (dashFix c))
  else if isLowerA (dashFix c) && up then (up, toupperA (dashFix c))
  else (up, dashFix c)

/-- Case-adjusting loop of TryNormalize over a character list, threading the
upper flag exactly as the C++ loop does. -/
def normLoop (up : Bool) : List Char → List Char
  | [] => []
  | c :: cs => (normStep up c).2 :: normLoop (normStep up c).1 cs

/-- Applying normStep to its own output character with the same incoming flag
changes nothing; this is the per-character core of idempotence. -/
theorem normStep_stable (up : Bool) (c : Char) :
    normStep up (normStep up c).2 = normStep up c := by
  by_cases h1 : dashFix c = '_'
  · have hfirst : normStep up c = (true, '_') := by
      simp [normStep, h1]
    rw [hfirst]
    rfl
  · have hc : dashFix c = c := by
      by_cases hd : c = '-'
      · rw [dashFix, if_pos hd] at h1; simp at h1
      · simp [dashFix, hd]
    rw [hc] at h1
    by_cases h2 : isUpperA c = true ∧ up = false
    · obtain ⟨hU, hup⟩ := h2
      have hl := isLowerA_tolowerA hU
      have hu := isUpperA_tolowerA hU
      have hne : tolowerA c ≠ '_' := tolowerA_ne_of_upper _ hU (by decide)
      have hnd : tolowerA c ≠ '-' := tolowerA_ne_of_upper _ hU (by decide)
      have hdf : dashFix (tolowerA c) = tolowerA c := by simp [dashFix, hnd]
      have hfirst : normStep up c = (up, tolowerA c) := by
        simp only [normStep, hc]
        simp [h1, hU, hup]
      rw [hfirst]
      simp [normStep, hdf, hne, hu, hl, hup]
    · by_cases h3 : isLowerA c = true ∧ up = true
      · obtain ⟨hL, hup⟩ := h3
        have hupp := isUpperA_toupperA hL
        have hlow := isLowerA_toupperA hL
        have hne : toupperA c ≠ '_' := toupperA_ne_of_lower _ hL (by decide)
        have hnd : toupperA c ≠ '-' := toupperA_ne_of_lower _ hL (by decide)
        have hdf : dashFix (toupperA c) = toupperA c := by simp [dashFix, hnd]
        have hfirst : normStep up c = (up, toupperA c) := by
          simp only [normStep, hc]
          simp [h1, hL, hup]
        rw [hfirst]
        simp [normStep, hdf, hne, hupp, hlow, hup]
      · have hb2 : (isUpperA c && !up) = false := by
          cases hu : isUpperA c with
          | false => simp
          | true =>
            cases hup : up with
            | true => simp
            | false => exact absurd ⟨hu, hup⟩ h2
        have hb3 : (isLowerA c && up) = false := by
          cases hl : isLowerA c with
          | false => simp
          | true =>
            cases hup : up with
            | false => simp
            | true => exact absurd ⟨hl, hup⟩ h3
        have hfirst : normStep up c = (up, c) := by
          simp only [normStep, hc]
          simp [h1, hb2, hb3]
        rw [hfirst]
        simp [normStep, hc, h1, hb2, hb3]

/-- Idempotence of the case-adjusting loop for any starting flag. -/
theorem normLoop_idem (s : List Char) : ∀ up, normLoop up (normLoop up s) = normLoop up s := by
  induction s with
  | nil => intro up; rfl
  | cons c cs ih =>
    intro up
    simp only [normLoop, normStep_stable, ih]

/-- Index of the last occurrence of a character in a list, mirroring rfind on a
std wstring (returning none for npos). -/
def rfindIdx (t : Char) : List Char → Option Nat
  | [] => none
  | c :: cs =>
    match rfindIdx t cs with
    | some i => some (i + 1)
    | none => if c = t then some 0 else none

/-- TryNormalize from language.cpp: lowercase the tail starting at the last at
sign, then run the case-adjusting loop on the part before it. -/
def tryNormalize (s : List Char) : List Char :=
  match rfindIdx '@' s with
  | none => normLoop false s
  | some pos => normLoop false (s.take pos) ++ (s.drop pos).map tolowerA

theorem normLoop_length (up : Bool) (s : List Char) : (normLoop up s).length = s.length := by
  induction s generalizing up with
  | nil => rfl
  | cons c cs ih => simp [normLoop, ih]

/-- The characters produced by normStep are at signs exactly when the input was. -/
theorem normStep_at_iff (up : Bool) (c : Char) : ((normStep up c).2 = '@') ↔ (c = '@') := by
  by_cases hd : c = '-'
  · subst hd
    constructor <;> intro h <;> simp [normStep, dashFix] at h ⊢
  · have hdf : dashFix c = c := by simp [dashFix, hd]
    by_cases h1 : c = '_'
    · subst h1
      constructor <;> intro h <;> simp [normStep, dashFix] at h ⊢
    · rw [normStep, hdf]
      rw [if_neg h1]
      by_cases h2 : (isUpperA c && !up) = true
      · rw [if_pos h2]
        simp only []
        have hU : isUpperA c = true := by
          rcases Bool.and_eq_true _ _ |>.mp h2 with ⟨hU, _⟩
          exact hU
        constructor
        · intro h
          exact absurd h (tolowerA_ne_of_upper _ hU (by decide))
        · intro h
          rw [h] at hU
          simp [isUpperA] at hU
      · rw [if_neg h2]
        by_cases h3 : (isLowerA c && up) = true
        · rw [if_pos h3]
          simp only []
          have hL : isLowerA c = true := by
            rcases Bool.and_eq_true _ _ |>.mp h3 with ⟨hL, _⟩
            exact hL
          constructor
          · intro h
            exact absurd h (toupperA_ne_of_lower _ hL (by decide))
          · intro h
            rw [h] at hL
            simp [isLowerA] at hL
        · rw [if_neg h3]

/-- The case-adjusting loop preserves the position of the last at sign. -/
theorem rfindIdx_at_normLoop (up : Bool) (s : List Char) :
    rfindIdx '@' (normLoop up s) = rfindIdx '@' s := by
  induction s generalizing up with
  | nil => rfl
  | cons c cs ih =>
    simp only [normLoop, rfindIdx, ih]
    cases h : rfindIdx '@' cs with
    | some i => rfl
    | none =>
      by_cases hc : c = '@'
      · rw [if_pos hc, if_pos ((normStep_at_iff up c).mpr hc)]
      · rw [if_neg hc, if_neg (fun h2 => hc ((normStep_at_iff up c).mp h2))]

/-- An ASCII lowercasing pass preserves the position of the last at sign. -/
theorem rfindIdx_at_map_tolowerA (s : List Char) :
    rfindIdx '@' (s.map tolowerA) = rfindIdx '@' s := by
  induction s with
  | nil => rfl
  | cons c cs ih =>
    simp only [List.map, rfindIdx, ih]
    cases h : rfindIdx '@' cs with
    | some i => rfl
    | none =>
      by_cases hc : c = '@'
      · rw [if_pos hc, if_pos ((tolowerA_at_iff c).mpr hc)]
      · rw [if_neg hc, if_neg (fun h2 => hc ((tolowerA_at_iff c).mp h2))]

theorem rfindIdx_append (t : Char) (a b : List Char) :
    rfindIdx t (a ++ b) =
      match rfindIdx t b with
      | some i => some (a.length + i)
      | none => rfindIdx t a := by
  induction a with
  | nil =>
    cases h : rfindIdx t b <;> simp [rfindIdx, h]
  | cons c cs ih =>
    have e : rfindIdx t ((c :: cs) ++ b) =
        match rfindIdx t (cs ++ b) with
        | some i => some (i + 1)
        | none => if c = t then some 0 else none := rfl
    rw [e, ih]
    cases h : rfindIdx t b with
    | some i =>
      simp
      omega
    | none => rfl

theorem rfindIdx_lt_length {t : Char} {s : List Char} {p : Nat}
    (h : rfindIdx t s = some p) : p < s.length := by
  induction s generalizing p with
  | nil => simp [rfindIdx] at h
  | cons c cs ih =>
    simp only [rfindIdx] at h
    cases h2 : rfindIdx t cs with
    | some i =>
      rw [h2] at h
      simp at h
      have := ih h2
      simp [List.length_cons]
      omega
    | none =>
      rw [h2] at h
      by_cases hc : c = t
      · rw [if_pos hc] at h
        simp at h
        simp [← h]
      · rw [if_neg hc] at h
        simp at h

theorem rfindIdx_drop_self {t : Char} {s : List Char} {p : Nat}
    (h : rfindIdx t s = some p) : rfindIdx t (s.drop p) = some 0 := by
  induction s generalizing p with
  | nil => simp [rfindIdx] at h
  | cons c cs ih =>
    simp only [rfindIdx] at h
    cases h2 : rfindIdx t cs with
    | some i =>
      rw [h2] at h
      simp at h
      rw [← h]
      simpa using ih h2
    | none =>
      rw [h2] at h
      by_cases hc : c = t
      · rw [if_pos hc] at h
        simp at h
        rw [← h]
        simp [rfindIdx, h2, hc]
      · rw [if_neg hc] at h
        simp at h

theorem map_tolowerA_idem (l : List Char) :
    (l.map tolowerA).map tolowerA = l.map tolowerA := by
  rw [List.map_map]
  congr 1
  funext c
  exact tolowerA_idem c

/-- C7: the normalization transform of language.cpp (TryNormalize, which
lowercases the portion after the last at sign, replaces dash with underscore,
lowercases letters before the first underscore and uppercases letters after it)
is idempotent: normalizing twice gives the same string as normalizing once. -/
theorem tryNormalize_idempotent (s : List Char) :
    tryNormalize (tryNormalize s) = tryNormalize s := by
  cases h : rfindIdx '@' s with
  | none =>
    have h1 : tryNormalize s = normLoop false s := by
      rw [tryNormalize, h]
    have h2 : rfindIdx '@' (normLoop false s) = none := by
      rw [rfindIdx_at_normLoop, h]
    rw [h1, tryNormalize, h2, normLoop_idem]
  | some pos =>
    have hlt : pos < s.length := rfindIdx_lt_length h
    have h1 : tryNormalize s = normLoop false (s.take pos) ++ (s.drop pos).map tolowerA := by
      rw [tryNormalize, h]
    have hlen : (normLoop false (s.take pos)).length = pos := by
      rw [normLoop_length, List.length_take]
      omega
    have hB : rfindIdx '@' ((s.drop pos).map tolowerA) = some 0 := by
      rw [rfindIdx_at_map_tolowerA]
      exact rfindIdx_drop_self h
    have h2 : rfindIdx '@' (normLoop false (s.take pos) ++ (s.drop pos).map tolowerA)
        = some pos := by
      rw [rfindIdx_append, hB, hlen]
      simp
    have htake : (normLoop false (s.take pos) ++ (s.drop pos).map tolowerA).take pos
        = normLoop false (s.take pos) := List.take_left' hlen
    have hdrop : (normLoop false (s.take pos) ++ (s.drop pos).map tolowerA).drop pos
        = (s.drop pos).map tolowerA := List.drop_left' hlen
    have h3 : tryNormalize (normLoop false (s.take pos) ++ (s.drop pos).map tolowerA)
        = normLoop false ((normLoop false (s.take pos) ++ (s.drop pos).map tolowerA).take pos)
          ++ ((normLoop false (s.take pos) ++ (s.drop pos).map tolowerA).drop pos).map
              tolowerA := by
      rw [tryNormalize, h2]
    rw [h1, h3, htake, hdrop, normLoop_idem, map_tolowerA_idem]

/-- Common tail of the strict grammar: nothing left, or an at sign followed by a
nonempty run of lowercase letters reaching the end of the string. On success it
pairs the already-parsed language and country with the variant. -/
def parseVariantTail (l c : List Char) : List Char → Option (List Char × List Char × List Char)
  | [] => some (l, c, [])
  | '@' :: r3 =>
    if r3.takeWhile isLowerA ≠ [] && r3.dropWhile isLowerA = [] then
      some (l, c, r3.takeWhile isLowerA)
    else none
  | _ => none

/-- Deterministic decision of the strict grammar RE_LANG_CODE of language.cpp,
two or three lowercase letters, optionally an underscore and either two
uppercase letters or three digits, optionally an at sign and lowercase letters,
matched against the whole string as regex_match does. Maximal munch is
equivalent to the regex here because after each piece only a separator, an at
sign or the end may follow, none of which continues the piece. -/
def parseLangCode (s : List Char) : Option (List Char × List Char × List Char) :=
  let l := s.takeWhile isLowerA
  if l.length < 2 || 3 < l.length then none
  else
    match s.dropWhile isLowerA with
    | '_' :: r2 =>
      if (r2.takeWhile isUpperA).length = 2 then
        parseVariantTail l (r2.takeWhile isUpperA) (r2.dropWhile isUpperA)
      else if (r2.takeWhile isDigitA).length = 3 then
        parseVariantTail l (r2.takeWhile isDigitA) (r2.dropWhile isDigitA)
      else none
    | r1 => parseVariantTail l [] r1

/-- Language.IsValidCode from language.cpp: full match against RE_LANG_CODE. -/
def isValidCode (s : List Char) : Bool := (parseLangCode s).isSome

/-- Common tail of the permissive grammar: nothing left, or an at sign followed
by a nonempty run of letters of either case reaching the end. -/
def permissiveTailOk : List Char → Bool
  | [] => true
  | '@' :: r3 => r3.takeWhile isAlphaA ≠ [] && r3.dropWhile isAlphaA = []
  | _ => false

/-- Deterministic decision of RE_LANG_CODE_PERMISSIVE of language.cpp: like the
strict grammar but letters of any case and either underscore or dash as the
separator. -/
def isPermissiveCode (s : List Char) : Bool :=
  let l := s.takeWhile isAlphaA
  if l.length < 2 || 3 < l.length then false
  else
    match s.dropWhile isAlphaA with
    | '_' :: r2 =>
      if (r2.takeWhile isAlphaA).length = 2 then permissiveTailOk (r2.dropWhile isAlphaA)
      else if (r2.takeWhile isDigitA).length = 3 then permissiveTailOk (r2.dropWhile isDigitA)
      else false
    | '-' :: r2 =>
      if (r2.takeWhile isAlphaA).length = 2 then permissiveTailOk (r2.dropWhile isAlphaA)
      else if (r2.takeWhile isDigitA).length = 3 then permissiveTailOk (r2.dropWhile isDigitA)
      else false
    | r1 => permissiveTailOk r1

/-- First index of an underscore or at sign, mirroring find_first_of on the
two-character set used by Language::Lang. -/
def findFirstOfUA : List Char → Option Nat
  | [] => none
  | c :: cs => if c = '_' || c = '@' then some 0 else (findFirstOfUA cs).map (· + 1)

/-- First index of a given character, mirroring find on a std string. -/
def findIdxChar (t : Char) : List Char → Option Nat
  | [] => none
  | c :: cs => if c = t then some 0 else (findIdxChar t cs).map (· + 1)

/-- Language::Lang from language.cpp: prefix before the first underscore or at
sign, or the whole code. -/
def langOf (code : List Char) : List Char :=
  match findFirstOfUA code with
  | none => code
  | some i => code.take i

/-- Language::Country from language.cpp: piece between the first underscore and
the last at sign, empty when there is no underscore. -/
def countryOf (code : List Char) : List Char :=
  match findIdxChar '_' code with
  | none => []
  | some pos =>
    match rfindIdx '@' code with
    | none => code.drop (pos + 1)
    | some endpos => (code.drop (pos + 1)).take (endpos - (pos + 1))

/-- Language::LangAndCountry from language.cpp: prefix before the last at sign,
or the whole code. -/
def langAndCountryOf (code : List Char) : List Char :=
  match rfindIdx '@' code with
  | none => code
  | some e => code.take e

/-- Language::Variant from language.cpp: piece after the last at sign, empty
when there is none. -/
def variantOf (code : List Char) : List Char :=
  match rfindIdx '@' code with
  | none => []
  | some p => code.drop (p + 1)

theorem class_bounds_lower {x : Char} (h : isLowerA x = true) :
    97 ≤ x.toNat ∧ x.toNat ≤ 122 := by
  simpa [isLowerA, Bool.and_eq_true, decide_eq_true_eq] using h

theorem class_bounds_upper {x : Char} (h : isUpperA x = true) :
    65 ≤ x.toNat ∧ x.toNat ≤ 90 := by
  simpa [isUpperA, Bool.and_eq_true, decide_eq_true_eq] using h

theorem class_bounds_digit {x : Char} (h : isDigitA x = true) :
    48 ≤ x.toNat ∧ x.toNat ≤ 57 := by
  simpa [isDigitA, Bool.and_eq_true, decide_eq_true_eq] using h

theorem lower_ne_underscore {x : Char} (h : isLowerA x = true) : x ≠ '_' := by
  have hb := class_bounds_lower h
  intro he
  rw [he] at hb
  exact absurd hb (by decide)

theorem lower_ne_at {x : Char} (h : isLowerA x = true) : x ≠ '@' := by
  have hb := class_bounds_lower h
  intro he
  rw [he] at hb
  exact absurd hb (by decide)

theorem upper_ne_underscore {x : Char} (h : isUpperA x = true) : x ≠ '_' := by
  have hb := class_bounds_upper h
  intro he
  rw [he] at hb
  exact absurd hb (by decide)

theorem upper_ne_at {x : Char} (h : isUpperA x = true) : x ≠ '@' := by
  have hb := class_bounds_upper h
  intro he
  rw [he] at hb
  exact absurd hb (by decide)

theorem digit_ne_underscore {x : Char} (h : isDigitA x = true) : x ≠ '_' := by
  have hb := class_bounds_digit h
  intro he
  rw [he] at hb
  exact absurd hb (by decide)

theorem digit_ne_at {x : Char} (h : isDigitA x = true) : x ≠ '@' := by
  have hb := class_bounds_digit h
  intro he
  rw [he] at hb
  exact absurd hb (by decide)

theorem findFirstOfUA_eq_none {l : List Char} (h : ∀ x ∈ l, x ≠ '_' ∧ x ≠ '@') :
    findFirstOfUA l = none := by
  induction l with
  | nil => rfl
  | cons a as ih =>
    have ha := h a (by simp)
    have hrest : findFirstOfUA as = none := ih (fun x hx => h x (by simp [hx]))
    simp [findFirstOfUA, ha.1, ha.2, hrest]

theorem findFirstOfUA_append_special {l : List Char} {d : Char} (rest : List Char)
    (h : ∀ x ∈ l, x ≠ '_' ∧ x ≠ '@') (hd : d = '_' ∨ d = '@') :
    findFirstOfUA (l ++ d :: rest) = some l.length := by
  induction l with
  | nil =>
    rcases hd with hd | hd <;> simp [findFirstOfUA, hd]
  | cons a as ih =>
    have ha := h a (by simp)
    have hrest := ih (fun x hx => h x (by simp [hx]))
    simp [findFirstOfUA, ha.1, ha.2, hrest]

theorem findIdxChar_eq_none {t : Char} {l : List Char} (h : ∀ x ∈ l, x ≠ t) :
    findIdxChar t l = none := by
  induction l with
  | nil => rfl
  | cons a as ih =>
    have ha := h a (by simp)
    have hrest : findIdxChar t as = none := ih (fun x hx => h x (by simp [hx]))
    simp [findIdxChar, ha, hrest]

theorem findIdxChar_append_self {t : Char} {l : List Char} (rest : List Char)
    (h : ∀ x ∈ l, x ≠ t) :
    findIdxChar t (l ++ t :: rest) = some l.length := by
  induction l with
  | nil => simp [findIdxChar]
  | cons a as ih =>
    have ha := h a (by simp)
    have hrest := ih (fun x hx => h x (by simp [hx]))
    simp [findIdxChar, ha, hrest]

theorem rfindIdx_eq_none {t : Char} {l : List Char} (h : ∀ x ∈ l, x ≠ t) :
    rfindIdx t l = none := by
  induction l with
  | nil => rfl
  | cons a as ih =>
    have ha := h a (by simp)
    have hrest : rfindIdx t as = none := ih (fun x hx => h x (by simp [hx]))
    simp [rfindIdx, ha, hrest]

theorem parseVariantTail_inv {l c r l2 c2 v : List Char}
    (h : parseVariantTail l c r = some (l2, c2, v)) :
    l2 = l ∧ c2 = c ∧ r = (if v = [] then [] else '@' :: v) ∧ ∀ x ∈ v, isLowerA x = true := by
  unfold parseVariantTail at h
  split at h
  · simp only [Option.some.injEq, Prod.mk.injEq] at h
    obtain ⟨h1, h2, h3⟩ := h
    subst h1; subst h2; subst h3
    simp
  · rename_i r3
    split at h
    · rename_i hcond
      simp only [Bool.and_eq_true, decide_eq_true_eq] at hcond
      obtain ⟨hne, hdrop⟩ := hcond
      simp only [Option.some.injEq, Prod.mk.injEq] at h
      obtain ⟨h1, h2, h3⟩ := h
      subst h1; subst h2; subst h3
      have hv : r3.takeWhile isLowerA ≠ [] := by simpa using hne
      refine ⟨rfl, rfl, ?_, ?_⟩
      · rw [if_neg hv]
        have : r3.takeWhile isLowerA ++ r3.dropWhile isLowerA = r3 :=
          List.takeWhile_append_dropWhile _ _
        rw [hdrop, List.append_nil] at this
        rw [this]
      · intro x hx
        exact List.mem_takeWhile_imp hx
    · exact absurd h (by simp)
  · exact absurd h (by simp)

theorem parseLangCode_inv {s l c v : List Char}
    (h : parseLangCode s = some (l, c, v)) :
    s = l ++ (if c = [] then [] else '_' :: c) ++ (if v = [] then [] else '@' :: v)
    ∧ (∀ x ∈ l, isLowerA x = true) ∧ 2 ≤ l.length ∧ l.length ≤ 3
    ∧ ((∀ x ∈ c, isUpperA x = true) ∧ c.length = 2
        ∨ (∀ x ∈ c, isDigitA x = true) ∧ c.length = 3
        ∨ c = [])
    ∧ ∀ x ∈ v, isLowerA x = true := by
  unfold parseLangCode at h
  simp only [] at h
  split at h
  · exact absurd h (by simp)
  · rename_i hlen
    have hsplit : s.takeWhile isLowerA ++ s.dropWhile isLowerA = s :=
      List.takeWhile_append_dropWhile _ _
    have hlmem : ∀ x ∈ s.takeWhile isLowerA, isLowerA x = true :=
      fun x hx => List.mem_takeWhile_imp hx
    have hlenb : 2 ≤ (s.takeWhile isLowerA).length ∧ (s.takeWhile isLowerA).length ≤ 3 := by
      simp only [Bool.or_eq_true, decide_eq_true_eq, not_or] at hlen
      omega
    split at h
    · rename_i r2 hr2
      split at h
      · rename_i hc2
        obtain ⟨e1, e2, e3, e4⟩ := parseVariantTail_inv h
        subst e1; subst e2
        have hcsplit : r2.takeWhile isUpperA ++ r2.dropWhile isUpperA = r2 :=
          List.takeWhile_append_dropWhile _ _
        refine ⟨?_, hlmem, hlenb.1, hlenb.2, ?_, e4⟩
        · conv_lhs => rw [← hsplit]
          rw [hr2]
          have hcne : r2.takeWhile isUpperA ≠ [] := by
            intro hz
            rw [hz] at hc2
            simp at hc2
          rw [if_neg hcne]
          rw [← e3, ← hcsplit]
          simp
        · exact Or.inl ⟨fun x hx => List.mem_takeWhile_imp hx, hc2⟩
      · split at h
        · rename_i hc3
          obtain ⟨e1, e2, e3, e4⟩ := parseVariantTail_inv h
          subst e1; subst e2
          have hcsplit : r2.takeWhile isDigitA ++ r2.dropWhile isDigitA = r2 :=
            List.takeWhile_append_dropWhile _ _
          refine ⟨?_, hlmem, hlenb.1, hlenb.2, ?_, e4⟩
          · conv_lhs => rw [← hsplit]
            rw [hr2]
            have hcne : r2.takeWhile isDigitA ≠ [] := by
              intro hz
              rw [hz] at hc3
              simp at hc3
            rw [if_neg hcne]
            rw [← e3, ← hcsplit]
            simp
          · exact Or.inr (Or.inl ⟨fun x hx => List.mem_takeWhile_imp hx, hc3⟩)
        · exact absurd h (by simp)
    · rename_i hr1
      obtain ⟨e1, e2, e3, e4⟩ := parseVariantTail_inv h
      subst e1; subst e2
      refine ⟨?_, hlmem, hlenb.1, hlenb.2, Or.inr (Or.inr rfl), e4⟩
      conv_lhs => rw [← hsplit]
      rw [← e3]
      simp

theorem accessors_of_parse {s l c v : List Char}
    (h : parseLangCode s = some (l, c, v)) :
    langOf s = l ∧ countryOf s = c ∧ variantOf s = v
    ∧ langAndCountryOf s = l ++ (if c = [] then [] else '_' :: c) := by
  obtain ⟨hs, hl, hl2, hl3, hc, hv⟩ := parseLangCode_inv h
  have hlne : ∀ x ∈ l, x ≠ '_' ∧ x ≠ '@' := fun x hx =>
    ⟨lower_ne_underscore (hl x hx), lower_ne_at (hl x hx)⟩
  have hcne : ∀ x ∈ c, x ≠ '_' ∧ x ≠ '@' := by
    intro x hx
    rcases hc with ⟨hup, _⟩ | ⟨hdig, _⟩ | hcnil
    · exact ⟨upper_ne_underscore (hup x hx), upper_ne_at (hup x hx)⟩
    · exact ⟨digit_ne_underscore (hdig x hx), digit_ne_at (hdig x hx)⟩
    · subst hcnil; simp at hx
  have hvne : ∀ x ∈ v, x ≠ '_' ∧ x ≠ '@' := fun x hx =>
    ⟨lower_ne_underscore (hv x hx), lower_ne_at (hv x hx)⟩
  by_cases hcn : c = []
  · by_cases hvn : v = []
    · have hs' : s = l := by rw [hs, hcn, hvn]; simp
      subst hs'
      subst hcn; subst hvn
      refine ⟨?_, ?_, ?_, ?_⟩
      · simp [langOf, findFirstOfUA_eq_none hlne]
      · simp [countryOf, findIdxChar_eq_none (fun x hx => (hlne x hx).1)]
      · simp [variantOf, rfindIdx_eq_none (fun x hx => (hlne x hx).2)]
      · simp [langAndCountryOf, rfindIdx_eq_none (fun x hx => (hlne x hx).2)]
    · have hs' : s = l ++ '@' :: v := by rw [hs, hcn, if_neg hvn]; simp
      subst hs'
      subst hcn
      have hff : findFirstOfUA (l ++ '@' :: v) = some l.length :=
        findFirstOfUA_append_special _ hlne (Or.inr rfl)
      have hu : findIdxChar '_' (l ++ '@' :: v) = none := by
        apply findIdxChar_eq_none
        intro x hx
        simp only [List.mem_append, List.mem_cons] at hx
        rcases hx with hx | hx | hx
        · exact (hlne x hx).1
        · subst hx; decide
        · exact (hvne x hx).1
      have hrv : rfindIdx '@' v = none := rfindIdx_eq_none (fun x hx => (hvne x hx).2)
      have hra : rfindIdx '@' (l ++ '@' :: v) = some l.length := by
        rw [rfindIdx_append]
        simp [rfindIdx, hrv]
      refine ⟨?_, ?_, ?_, ?_⟩
      · simp [langOf, hff, List.take_left' rfl]
      · simp [countryOf, hu]
      · have hdp : (l ++ '@' :: v).drop (l.length + 1) = v := by
          have : l ++ '@' :: v = (l ++ ['@']) ++ v := by simp
          rw [this]
          exact List.drop_left' (by simp)
        simp [variantOf, hra, hdp]
      · simp [langAndCountryOf, hra, List.take_left' rfl]
  · by_cases hvn : v = []
    · have hs' : s = l ++ '_' :: c := by rw [hs, if_neg hcn, hvn]; simp
      subst hs'
      subst hvn
      have hff : findFirstOfUA (l ++ '_' :: c) = some l.length :=
        findFirstOfUA_append_special _ hlne (Or.inl rfl)
      have hu : findIdxChar '_' (l ++ '_' :: c) = some l.length :=
        findIdxChar_append_self _ (fun x hx => (hlne x hx).1)
      have hra : rfindIdx '@' (l ++ '_' :: c) = none := by
        apply rfindIdx_eq_none
        intro x hx
        simp only [List.mem_append, List.mem_cons] at hx
        rcases hx with hx | hx | hx
        · exact (hlne x hx).2
        · subst hx; decide
        · exact (hcne x hx).2
      have hdp : (l ++ '_' :: c).drop (l.length + 1) = c := by
        have : l ++ '_' :: c = (l ++ ['_']) ++ c := by simp
        rw [this]
        exact List.drop_left' (by simp)
      refine ⟨?_, ?_, ?_, ?_⟩
      · simp [langOf, hff, List.take_left' rfl]
      · simp [countryOf, hu, hra, hdp]
      · simp [variantOf, hra]
      · simp [langAndCountryOf, hra, if_neg hcn]
    · have hs' : s = l ++ '_' :: (c ++ '@' :: v) := by
        rw [hs, if_neg hcn, if_neg hvn]
        simp
      subst hs'
      have heqA : l ++ '_' :: (c ++ '@' :: v) = (l ++ '_' :: c) ++ '@' :: v := by simp
      have heqB : l ++ '_' :: (c ++ '@' :: v) = (l ++ ['_']) ++ (c ++ '@' :: v) := by simp
      have heqC : l ++ '_' :: (c ++ '@' :: v) = ((l ++ '_' :: c) ++ ['@']) ++ v := by simp
      have hmidlen : (l ++ '_' :: c).length = l.length + 1 + c.length := by
        simp
        omega
      have hff : findFirstOfUA (l ++ '_' :: (c ++ '@' :: v)) = some l.length :=
        findFirstOfUA_append_special _ hlne (Or.inl rfl)
      have hu : findIdxChar '_' (l ++ '_' :: (c ++ '@' :: v)) = some l.length :=
        findIdxChar_append_self _ (fun x hx => (hlne x hx).1)
      have hrv : rfindIdx '@' v = none := rfindIdx_eq_none (fun x hx => (hvne x hx).2)
      have hra : rfindIdx '@' (l ++ '_' :: (c ++ '@' :: v))
          = some (l.length + 1 + c.length) := by
        rw [heqA, rfindIdx_append]
        simp [rfindIdx, hrv, hmidlen]
      have hdp1 : (l ++ '_' :: (c ++ '@' :: v)).drop (l.length + 1) = c ++ '@' :: v := by
        rw [heqB]
        exact List.drop_left' (by simp)
      have hdp2 : (l ++ '_' :: (c ++ '@' :: v)).drop (l.length + 1 + c.length + 1) = v := by
        rw [heqC]
        apply List.drop_left'
        simp only [List.length_append, List.length_cons, List.length_nil]
        omega
      have htkl : (l ++ '_' :: (c ++ '@' :: v)).take l.length = l := List.take_left' rfl
      refine ⟨?_, ?_, ?_, ?_⟩
      · simp only [langOf, hff, htkl]
      · have harith : l.length + 1 + c.length - (l.length + 1) = c.length := by omega
        have htk : (c ++ '@' :: v).take c.length = c := List.take_left' rfl
        simp only [countryOf, hu, hra, hdp1, harith, htk]
      · simp only [variantOf, hra, hdp2]
      · have htk : (l ++ '_' :: (c ++ '@' :: v)).take (l.length + 1 + c.length)
            = l ++ '_' :: c := by
          rw [heqC]
          have : ((l ++ '_' :: c) ++ ['@']) ++ v = (l ++ '_' :: c) ++ ('@' :: v) := by simp
          rw [this]
          exact List.take_left' hmidlen
        simp only [langAndCountryOf, hra, htk]
        rw [if_neg hcn]

/-- C9: for a Language whose stored code matches the canonical grammar, the
accessors decompose the code exactly: the code is Lang, then an underscore and
Country when Country is nonempty, then an at sign and Variant when Variant is
nonempty; and the code is LangAndCountry followed by the at-variant suffix,
so LangAndCountry is the code with any variant suffix removed. -/
theorem lang_code_accessors_decompose (s : List Char) (h : isValidCode s = true) :
    s = langOf s ++ (if countryOf s = [] then [] else '_' :: countryOf s)
        ++ (if variantOf s = [] then [] else '@' :: variantOf s)
    ∧ s = langAndCountryOf s ++ (if variantOf s = [] then [] else '@' :: variantOf s) := by
  rw [isValidCode] at h
  cases hp : parseLangCode s with
  | none => rw [hp] at h; simp at h
  | some t =>
    obtain ⟨l, c, v⟩ := t
    obtain ⟨ha1, ha2, ha3, ha4⟩ := accessors_of_parse hp
    obtain ⟨hs, -, -, -, -, -⟩ := parseLangCode_inv hp
    rw [ha1, ha2, ha3, ha4]
    constructor
    · exact hs
    · rw [hs]

/-- Companion witness exercising the C9 theorem on a concrete canonical code
with all three pieces present. -/
theorem lang_code_accessors_decompose_witness :
    isValidCode ("cs_CZ@latin".toList) = true
    ∧ ("cs_CZ@latin".toList
        = langOf ("cs_CZ@latin".toList)
          ++ (if countryOf ("cs_CZ@latin".toList) = [] then []
              else '_' :: countryOf ("cs_CZ@latin".toList))
          ++ (if variantOf ("cs_CZ@latin".toList) = [] then []
              else '@' :: variantOf ("cs_CZ@latin".toList))
        ∧ "cs_CZ@latin".toList
          = langAndCountryOf ("cs_CZ@latin".toList)
            ++ (if variantOf ("cs_CZ@latin".toList) = [] then []
                else '@' :: variantOf ("cs_CZ@latin".toList))) :=
  ⟨by decide, lang_code_accessors_decompose _ (by decide)⟩

/-
Language::TryParse and friends. A Language value is represented by its
canonical code, the empty list standing for the invalid language, because
IsValid (declared in the header, not among the shown sources) is described by
the spec as an emptiness test on the code sentinel. The locale database is an
external collaborator, so the localized and English display-name indices, the
ICU case folding, and the BCP-47 parser are oracle parameters; a none result of
the fromTag oracle covers both a parse failure and an invalid parsed language.
-/

/-- Language::TryParse from language.cpp, lines 339-378: strict grammar, the
two Chinese legacy aliases, permissive grammar plus normalization, localized
display names, English display names, then the BCP-47 route. -/
def tryParse (names namesEng : List Char → Option (List Char))
    (fold : List Char → List Char)
    (fromTag : List Char → Option (List Char))
    (s : List Char) : List Char :=
  if isValidCode s then s
  else if s = "zh-Hans".toList then "zh_CN".toList
  else if s = "zh-Hant".toList then "zh_TW".toList
  else if isPermissiveCode s && isValidCode (tryNormalize s) then tryNormalize s
  else
    match names (fold s) with
    | some code => code
    | none =>
      match namesEng (fold s) with
      | some code => code
      | none =>
        match fromTag s with
        | some code => code
        | none => []

/-- Resolution steps of TryParse written the way the spec enumerates them: an
ordered list of independent attempts, each returning an optional code. -/
def tryParseChain (names namesEng : List Char → Option (List Char))
    (fold : List Char → List Char)
    (fromTag : List Char → Option (List Char))
    (s : List Char) : List (Option (List Char)) :=
  [ if isValidCode s then some s else none,
    if s = "zh-Hans".toList then some ("zh_CN".toList)
    else if s = "zh-Hant".toList then some ("zh_TW".toList)
    else none,
    if isPermissiveCode s && isValidCode (tryNormalize s) then some (tryNormalize s)
    else none,
    names (fold s),
    namesEng (fold s),
    fromTag s ]

/-- First successful attempt of an ordered list of resolution steps, the
invalid code when every step fails. -/
def firstSome : List (Option (List Char)) → List Char
  | [] => []
  | some x :: _ => x
  | none :: rest => firstSome rest

/-- C3: TryParse tries exactly the ordered resolution chain (strict match,
Chinese legacy aliases, permissive match with normalization and revalidation,
localized display names, English display names, BCP-47 tag) and returns the
first success, the invalid language otherwise; in particular it maps DE-de to
the canonical de_DE via normalization and returns sr@latin unchanged via the
strict match, for every choice of locale-database oracles. -/
theorem tryParse_resolution_chain (names namesEng : List Char → Option (List Char))
    (fold : List Char → List Char)
    (fromTag : List Char → Option (List Char)) :
    (∀ s, tryParse names namesEng fold fromTag s
        = firstSome (tryParseChain names namesEng fold fromTag s))
    ∧ tryParse names namesEng fold fromTag ("DE-de".toList) = "de_DE".toList
    ∧ tryParse names namesEng fold fromTag ("sr@latin".toList) = "sr@latin".toList := by
  refine ⟨?_, ?_, ?_⟩
  · intro s
    by_cases h1 : isValidCode s = true
    · simp [tryParse, tryParseChain, firstSome, h1]
    · by_cases h2 : s = "zh-Hans".toList
      · subst h2
        have e : isValidCode (['z', 'h', '-', 'H', 'a', 'n', 's'] : List Char) = false := by
          decide
        simp [tryParse, tryParseChain, firstSome, e]
      · by_cases h3 : s = "zh-Hant".toList
        · subst h3
          have e : isValidCode (['z', 'h', '-', 'H', 'a', 'n', 't'] : List Char) = false := by
            decide
          have e2 : ¬ (['z', 'h', '-', 'H', 'a', 'n', 't'] : List Char)
              = ['z', 'h', '-', 'H', 'a', 'n', 's'] := by decide
          simp [tryParse, tryParseChain, firstSome, e, e2]
        · have h2x : ¬ s = ['z', 'h', '-', 'H', 'a', 'n', 's'] := by simpa using h2
          have h3x : ¬ s = ['z', 'h', '-', 'H', 'a', 'n', 't'] := by simpa using h3
          by_cases h4 : (isPermissiveCode s && isValidCode (tryNormalize s)) = true
          · simp [tryParse, tryParseChain, firstSome, h1, h2x, h3x, h4]
          · cases hn : names (fold s) with
            | some code => simp [tryParse, tryParseChain, firstSome, h1, h2x, h3x, h4, hn]
            | none =>
              cases he : namesEng (fold s) with
              | some code =>
                simp [tryParse, tryParseChain, firstSome, h1, h2x, h3x, h4, hn, he]
              | none =>
                cases ht : fromTag s with
                | some code =>
                  simp [tryParse, tryParseChain, firstSome, h1, h2x, h3x, h4, hn, he, ht]
                | none =>
                  simp [tryParse, tryParseChain, firstSome, h1, h2x, h3x, h4, hn, he, ht]
  · have e1 : isValidCode (['D', 'E', '-', 'd', 'e'] : List Char) = false := by decide
    have e4 : isPermissiveCode (['D', 'E', '-', 'd', 'e'] : List Char) = true := by decide
    have e5 : tryNormalize (['D', 'E', '-', 'd', 'e'] : List Char)
        = ['d', 'e', '_', 'D', 'E'] := by decide
    have e6 : isValidCode (['d', 'e', '_', 'D', 'E'] : List Char) = true := by decide
    simp [tryParse, e1, e4, e5, e6]
  · have e1 : isValidCode (['s', 'r', '@', 'l', 'a', 't', 'i', 'n'] : List Char) = true := by
      decide
    simp [tryParse, e1]

/-- Language::TryParseWithValidation from language.cpp, lines 381-395: the
TryParse result is rejected unless its language is in the ISO-639 table and its
country, when present, is in the ISO-3166 table; the tables live in the locale
database and are oracle parameters. -/
def tryParseWithValidation (names namesEng : List Char → Option (List Char))
    (fold : List Char → List Char)
    (fromTag : List Char → Option (List Char))
    (isoLang isoCountry : List Char → Bool)
    (s : List Char) : List Char :=
  let lang := tryParse names namesEng fold fromTag s
  if lang = [] then []
  else if !(isoLang (langOf lang)) then []
  else if countryOf lang ≠ [] && !(isoCountry (countryOf lang)) then []
  else lang

/-- C6: TryParseWithValidation returns the invalid language unless TryParse
succeeds, the language subtag of the result passes the ISO-639 test and its
country subtag, when present, passes the ISO-3166 test; when all hold it
returns the TryParse result unchanged. -/
theorem tryParseWithValidation_spec (names namesEng : List Char → Option (List Char))
    (fold : List Char → List Char)
    (fromTag : List Char → Option (List Char))
    (isoLang isoCountry : List Char → Bool)
    (s : List Char) :
    tryParseWithValidation names namesEng fold fromTag isoLang isoCountry s
      = if tryParse names namesEng fold fromTag s ≠ []
            ∧ isoLang (langOf (tryParse names namesEng fold fromTag s)) = true
            ∧ (countryOf (tryParse names namesEng fold fromTag s) = []
                ∨ isoCountry (countryOf (tryParse names namesEng fold fromTag s)) = true)
        then tryParse names namesEng fold fromTag s
        else [] := by
  rw [tryParseWithValidation]
  by_cases h1 : tryParse names namesEng fold fromTag s = []
  · simp [h1]
  · by_cases h2 : isoLang (langOf (tryParse names namesEng fold fromTag s)) = true
    · by_cases h3 : countryOf (tryParse names namesEng fold fromTag s) = []
      · simp [h1, h2, h3]
      · by_cases h4 : isoCountry (countryOf (tryParse names namesEng fold fromTag s)) = true
        · simp [h1, h2, h3, h4]
        · simp only [Bool.not_eq_true] at h4
          simp [h1, h2, h3, h4]
    · simp only [Bool.not_eq_true] at h2
      simp [h1, h2]

/-- Text direction of a language, as in language.h. -/
inductive TextDirection where
  | LTR : TextDirection
  | RTL : TextDirection
deriving DecidableEq

/-- Language object state: canonical code plus the fields Language::Init fills. -/
structure LanguageState where
  m_code : List Char
  m_tag : List Char
  m_icuLocale : List Char
  m_direction : TextDirection
deriving DecidableEq

/-- Modelled from the spec: Language::IsValid is declared in language.h, which
is not among the shown sources; the spec represents unresolvable input
uniformly as an invalid or empty result, so validity is nonemptiness of the
stored code. -/
def langIsValid (code : List Char) : Bool := !(code.isEmpty)

/-- DoGetLanguageTag from language.cpp, lines 235-265: language, then a script
suffix for the latin and cyrillic variants, then the country, then any other
variant as a private-use subtag. -/
def doGetLanguageTag (code : List Char) : List Char :=
  if variantOf code = "latin".toList then
    (langOf code ++ "-Latn".toList)
      ++ (if countryOf code = [] then [] else '-' :: countryOf code)
  else if variantOf code = "cyrillic".toList then
    (langOf code ++ "-Cyrl".toList)
      ++ (if countryOf code = [] then [] else '-' :: countryOf code)
  else
    (langOf code ++ (if countryOf code = [] then [] else '-' :: countryOf code))
      ++ (if variantOf code = [] then [] else "-x-".toList ++ variantOf code)

/-- Language::Init from language.cpp, lines 284-300, with the script-direction
lookup of the locale database as an oracle on the ICU locale name. -/
def languageInit (isRTL : List Char → Bool) (code : List Char) : LanguageState :=
  if langIsValid code then
    { m_code := code
      m_tag := doGetLanguageTag code
      m_icuLocale := doGetLanguageTag code
      m_direction := if isRTL (doGetLanguageTag code) then TextDirection.RTL
                     else TextDirection.LTR }
  else
    { m_code := code, m_tag := [], m_icuLocale := [], m_direction := TextDirection.LTR }

/-- C10: a Language initialized from the invalid sentinel gets an empty BCP-47
tag, an empty ICU locale name and LTR direction, while a code matching the
canonical grammar always yields a nonempty tag built from its parts. -/
theorem language_init_fields (isRTL : List Char → Bool) :
    (∀ code, langIsValid code = false →
        (languageInit isRTL code).m_tag = []
        ∧ (languageInit isRTL code).m_icuLocale = []
        ∧ (languageInit isRTL code).m_direction = TextDirection.LTR)
    ∧ (∀ code, isValidCode code = true → (languageInit isRTL code).m_tag ≠ []) := by
  constructor
  · intro code h
    simp [languageInit, h]
  · intro code h
    rw [isValidCode] at h
    cases hp : parseLangCode code with
    | none => rw [hp] at h; simp at h
    | some t =>
      obtain ⟨l, c, v⟩ := t
      obtain ⟨ha1, -, -, -⟩ := accessors_of_parse hp
      obtain ⟨hs, -, hl2, -, -, -⟩ := parseLangCode_inv hp
      have hlne : l ≠ [] := by
        intro hz
        rw [hz] at hl2
        simp at hl2
      have hcodene : code ≠ [] := by
        intro hz
        rw [hz] at hs
        have := congrArg List.length hs
        simp at this
        omega
      have hvalid : langIsValid code = true := by
        simp [langIsValid, hcodene]
      rw [languageInit, if_pos hvalid]
      simp only []
      rw [doGetLanguageTag]
      by_cases hv1 : variantOf code = "latin".toList
      · rw [if_pos hv1]
        simp [ha1, hlne]
      · rw [if_neg hv1]
        by_cases hv2 : variantOf code = "cyrillic".toList
        · rw [if_pos hv2]
          simp [ha1, hlne]
        · rw [if_neg hv2]
          simp [ha1, hlne]

/-- Companion witness exercising the C10 theorem at the empty code and at a
concrete canonical code. -/
theorem language_init_fields_witness :
    (langIsValid [] = false
      ∧ ((languageInit (fun _ => false) []).m_tag = []
          ∧ (languageInit (fun _ => false) []).m_icuLocale = []
          ∧ (languageInit (fun _ => false) []).m_direction = TextDirection.LTR))
    ∧ (isValidCode ("de".toList) = true
        ∧ (languageInit (fun _ => false) ("de".toList)).m_tag ≠ []) :=
  ⟨⟨by decide, (language_init_fields (fun _ => false)).1 [] (by decide)⟩,
   ⟨by decide, (language_init_fields (fun _ => false)).2 ("de".toList) (by decide)⟩⟩

/-
PluralFormsExpr. The compiled calculator lives in pluralforms/pl_evaluate.cpp,
which is not among the shown sources, so the calculator is modelled from the
spec: a small parser and evaluator for the gettext Plural-Forms grammar,
C-style ternary, boolean, comparison and modulo arithmetic over the variable n.
-/

/-- Binary operators of the plural-forms expression grammar. -/
inductive PBinop where
  | lor : PBinop
  | land : PBinop
  | eq : PBinop
  | ne : PBinop
  | lt : PBinop
  | le : PBinop
  | gt : PBinop
  | ge : PBinop
  | mod : PBinop
deriving DecidableEq

/-- Expression tree of a plural-forms selector. -/
inductive PExpr where
  | num (v : Nat) : PExpr
  | nvar : PExpr
  | binop (o : PBinop) (a b : PExpr) : PExpr
  | ternary (c a b : PExpr) : PExpr
deriving DecidableEq

/-- Meaning of one binary operator, booleans encoded as 0 and 1 as in C. -/
def applyBinop (o : PBinop) (a b : Nat) : Nat :=
  match o with
  | .lor => if a ≠ 0 ∨ b ≠ 0 then 1 else 0
  | .land => if a ≠ 0 ∧ b ≠ 0 then 1 else 0
  | .eq => if a = b then 1 else 0
  | .ne => if a ≠ b then 1 else 0
  | .lt => if a < b then 1 else 0
  | .le => if a ≤ b then 1 else 0
  | .gt => if b < a then 1 else 0
  | .ge => if b ≤ a then 1 else 0
  | .mod => a % b

/-- Evaluation of a plural-forms expression at a cardinal n. -/
def PExpr.eval : PExpr → Nat → Nat
  | .num v, _ => v
  | .nvar, n => n
  | .binop o a b, n => applyBinop o (a.eval n) (b.eval n)
  | .ternary c a b, n => if c.eval n ≠ 0 then a.eval n else b.eval n

/-- Tokens of the plural-forms grammar. -/
inductive PTok where
  | num (v : Nat) : PTok
  | nvar : PTok
  | npluralsKw : PTok
  | pluralKw : PTok
  | assign : PTok
  | semi : PTok
  | lpar : PTok
  | rpar : PTok
  | quest : PTok
  | colon : PTok
  | orT : PTok
  | andT : PTok
  | eqT : PTok
  | neT : PTok
  | ltT : PTok
  | leT : PTok
  | gtT : PTok
  | geT : PTok
  | modT : PTok
deriving DecidableEq

/-- Numeric value of a digit run. -/
def natOfDigits (ds : List Char) : Nat :=
  ds.foldl (fun acc d => acc * 10 + (d.toNat - 48)) 0

/-- Tokenizer for plural-forms header text; fuel is at least the remaining
length plus one, so it never runs out on the inputs make feeds it. -/
def tokenize : Nat → List Char → Option (List PTok)
  | 0, _ => none
  | _, [] => some []
  | fuel + 1, c :: cs =>
    if c = ' ' ∨ c = '\t' ∨ c = '\n' ∨ c = '\r' then tokenize fuel cs
    else if isDigitA c then
      match tokenize fuel ((c :: cs).dropWhile isDigitA) with
      | some ts => some (.num (natOfDigits ((c :: cs).takeWhile isDigitA)) :: ts)
      | none => none
    else if isAlphaA c then
      match
        (if (c :: cs).takeWhile isAlphaA = "n".toList then some PTok.nvar
         else if (c :: cs).takeWhile isAlphaA = "nplurals".toList then some PTok.npluralsKw
         else if (c :: cs).takeWhile isAlphaA = "plural".toList then some PTok.pluralKw
         else none),
        tokenize fuel ((c :: cs).dropWhile isAlphaA) with
      | some t, some ts => some (t :: ts)
      | _, _ => none
    else if c = '(' then (tokenize fuel cs).map (PTok.lpar :: ·)
    else if c = ')' then (tokenize fuel cs).map (PTok.rpar :: ·)
    else if c = '?' then (tokenize fuel cs).map (PTok.quest :: ·)
    else if c = ':' then (tokenize fuel cs).map (PTok.colon :: ·)
    else if c = ';' then (tokenize fuel cs).map (PTok.semi :: ·)
    else if c = '%' then (tokenize fuel cs).map (PTok.modT :: ·)
    else if c = '=' then
      match cs with
      | '=' :: cs2 => (tokenize fuel cs2).map (PTok.eqT :: ·)
      | _ => (tokenize fuel cs).map (PTok.assign :: ·)
    else if c = '!' then
      match cs with
      | '=' :: cs2 => (tokenize fuel cs2).map (PTok.neT :: ·)
      | _ => none
    else if c = '<' then
      match cs with
      | '=' :: cs2 => (tokenize fuel cs2).map (PTok.leT :: ·)
      | _ => (tokenize fuel cs).map (PTok.ltT :: ·)
    else if c = '>' then
      match cs with
      | '=' :: cs2 => (tokenize fuel cs2).map (PTok.geT :: ·)
      | _ => (tokenize fuel cs).map (PTok.gtT :: ·)
    else if c = '&' then
      match cs with
      | '&' :: cs2 => (tokenize fuel cs2).map (PTok.andT :: ·)
      | _ => none
    else if c = '|' then
      match cs with
      | '|' :: cs2 => (tokenize fuel cs2).map (PTok.orT :: ·)
      | _ => none
    else none

/-- Operator table by precedence level: 1 disjunction, 2 conjunction, 3
equality, 4 relational, 5 modulo. -/
def levelOp (k : Nat) (t : PTok) : Option PBinop :=
  match k, t with
  | 1, .orT => some PBinop.lor
  | 2, .andT => some PBinop.land
  | 3, .eqT => some PBinop.eq
  | 3, .neT => some PBinop.ne
  | 4, .ltT => some PBinop.lt
  | 4, .leT => some PBinop.le
  | 4, .gtT => some PBinop.gt
  | 4, .geT => some PBinop.ge
  | 5, .modT => some PBinop.mod
  | _, _ => none

/-- Parser state: about to parse a whole level, or folding a left-associative
chain of binary operators at a level with an accumulated left operand. -/
inductive PMode where
  | lvl (k : Nat) : PMode
  | chain (k : Nat) (acc : PExpr) : PMode

/-- Recursive-descent parse of the plural-forms expression grammar with
C precedence: ternary, disjunction, conjunction, equality, relational, modulo,
then primaries n, numbers and parentheses. Fuel-driven so it is structural. -/
def parseP : Nat → PMode → List PTok → Option (PExpr × List PTok)
  | 0, _, _ => none
  | fuel + 1, .lvl 0, ts =>
    match parseP fuel (.lvl 1) ts with
    | some (c, .quest :: r2) =>
      match parseP fuel (.lvl 0) r2 with
      | some (a, .colon :: r4) =>
        match parseP fuel (.lvl 0) r4 with
        | some (b, r5) => some (.ternary c a b, r5)
        | none => none
      | _ => none
    | some (c, rest) => some (c, rest)
    | none => none
  | fuel + 1, .lvl 6, ts =>
    match ts with
    | .num v :: r => some (.num v, r)
    | .nvar :: r => some (.nvar, r)
    | .lpar :: r =>
      match parseP fuel (.lvl 0) r with
      | some (e, .rpar :: r2) => some (e, r2)
      | _ => none
    | _ => none
  | fuel + 1, .lvl k, ts =>
    match parseP fuel (.lvl (k + 1)) ts with
    | some (a, rest) => parseP fuel (.chain k a) rest
    | none => none
  | fuel + 1, .chain k acc, ts =>
    match ts with
    | t :: r =>
      match levelOp k t with
      | some o =>
        match parseP fuel (.lvl (k + 1)) r with
        | some (b, r2) => parseP fuel (.chain k (.binop o acc b)) r2
        | none => none
      | none => some (acc, ts)
    | [] => some (acc, [])

/-- Compiled plural-forms calculator: the plural count and the selector tree. -/
structure PluralFormsCalculator where
  npl : Nat
  expr : PExpr
deriving DecidableEq

/-- Plural count reported by a calculator. -/
def PluralFormsCalculator.nplurals (c : PluralFormsCalculator) : Nat := c.npl

/-- Evaluation of a calculator at a cardinal n. -/
def PluralFormsCalculator.evaluate (c : PluralFormsCalculator) (n : Nat) : Nat :=
  c.expr.eval n

/-- Modelled from the spec: PluralFormsCalculator::make lives in
pluralforms/pl_evaluate.cpp, which is not among the shown sources. The spec
describes the input as a gettext Plural-Forms header value, nplurals=N
followed by a semicolon and plural=EXPR with an optional trailing semicolon;
a malformed or empty expression yields no calculator rather than an error. -/
def PluralFormsCalculator.make (s : List Char) : Option PluralFormsCalculator :=
  match tokenize (s.length + 1) s with
  | none => none
  | some ts =>
    match ts with
    | .npluralsKw :: .assign :: .num k :: .semi :: .pluralKw :: .assign :: rest =>
      match parseP (8 * rest.length + 16) (.lvl 0) rest with
      | some (e, []) => some { npl := k, expr := e }
      | some (e, [.semi]) => some { npl := k, expr := e }
      | _ => none
    | _ => none

/-- PluralFormsExpr state: raw text, supplied cardinality, and the lazily
created calculator with its one-shot creation flag, as in language.h. -/
structure PluralFormsExpr where
  m_expr : List Char
  m_nplurals : Int
  m_calcCreated : Bool
  m_calc : Option PluralFormsCalculator
deriving DecidableEq

/-- Parsing constructor of PluralFormsExpr from language.cpp line 639: stores
the text and cardinality, calculator not yet created. -/
def PluralFormsExpr.ofExpr (expr : List Char) (np : Int) : PluralFormsExpr :=
  { m_expr := expr, m_nplurals := np, m_calcCreated := false, m_calc := none }

/-- Anchored regex nplurals=digits applied with regex_match as in language.cpp
line 657: regex_match succeeds only when the whole string matches, so the text
must be exactly nplurals= followed by digits to the end. -/
def npluralsFullTextMatch (s : List Char) : Option Int :=
  if s.take 9 = "nplurals=".toList ∧ s.drop 9 ≠ [] ∧ (s.drop 9).all isDigitA then
    some (Int.ofNat (natOfDigits (s.drop 9)))
  else none

/-- Prefix reading of the same regex: what an anchored regex_search, and the
spec, describe, a textual nplurals=N prefix match. -/
def npluralsPrefixMatch (s : List Char) : Option Int :=
  if s.take 9 = "nplurals=".toList ∧ (s.drop 9).takeWhile isDigitA ≠ [] then
    some (Int.ofNat (natOfDigits ((s.drop 9).takeWhile isDigitA)))
  else none

/-- PluralFormsExpr::nplurals from language.cpp lines 648-661: the supplied
cardinality if any, else the current calculator if one has been created, else
the anchored full-text regex match, else -1. -/
def PluralFormsExpr.nplurals (e : PluralFormsExpr) : Int :=
  if e.m_nplurals ≠ -1 then e.m_nplurals
  else
    match e.m_calc with
    | some c => Int.ofNat c.npl
    | none =>
      match npluralsFullTextMatch e.m_expr with
      | some k => k
      | none => -1

/-- Value returned by PluralFormsExpr::calc from language.cpp lines 663-672:
the stored calculator once created, otherwise the result of compiling a
nonempty expression, otherwise no calculator. -/
def PluralFormsExpr.calcValue (e : PluralFormsExpr) : Option PluralFormsCalculator :=
  if e.m_calcCreated then e.m_calc
  else if e.m_expr ≠ [] then PluralFormsCalculator.make e.m_expr
  else none

/-- The erase_all_copy call of operator== in language.cpp line 681: boost
erase_all removes every occurrence of the search string, here the two-character
string of a space followed by a tab, scanning left to right over the original
text without rescanning. -/
def eraseSpaceTab : List Char → List Char
  | ' ' :: '\t' :: rest => eraseSpaceTab rest
  | c :: rest => c :: eraseSpaceTab rest
  | [] => []

/-- Deletion of every space and every tab character, the per-character reading
of whitespace stripping; kept separate from eraseSpaceTab, which is what the
code computes, so the two can be compared. -/
def stripSpacesAndTabs (s : List Char) : List Char :=
  s.filter (fun c => !(c = ' ' || c = '\t'))

/-- Modelled from the spec: MAX_EXAMPLES_COUNT is declared in language.h, which
is not among the shown sources; the spec asks for enough values to cover a
couple of full periods and names 200 as sufficient. -/
def MAX_EXAMPLES_COUNT : Nat := 200

/-- PluralFormsExpr::operator== from language.cpp lines 674-703: raw equality,
then equality after the space-tab substring erasure, then semantic comparison
of the two compiled calculators over the sample range. -/
def pluralFormsEq (a b : PluralFormsExpr) : Bool :=
  if a.m_expr = b.m_expr then true
  else if eraseSpaceTab a.m_expr = eraseSpaceTab b.m_expr then true
  else
    match a.calcValue, b.calcValue with
    | some c1, some c2 =>
      if c1.nplurals ≠ c2.nplurals then false
      else (List.range MAX_EXAMPLES_COUNT).all
        (fun i => c1.evaluate i = c2.evaluate i)
    | _, _ => false

/-- PluralFormsExpr::evaluate_for_n from language.cpp lines 705-709: the
calculator result, or 0 when there is no calculator. -/
def PluralFormsExpr.evaluateForN (e : PluralFormsExpr) (n : Nat) : Nat :=
  match e.calcValue with
  | some c => c.evaluate n
  | none => 0

/-- C1 counterexample: the raw texts of the two instances agree after deleting
every space and tab character, yet operator== returns false, because the code
erases only occurrences of the two-character space-tab substring, a lone space
survives the erasure, and neither text compiles. -/
theorem pluralFormsEq_strip_counterexample :
    stripSpacesAndTabs ("a b".toList) = stripSpacesAndTabs ("ab".toList)
    ∧ pluralFormsEq (PluralFormsExpr.ofExpr ("a b".toList) (-1))
        (PluralFormsExpr.ofExpr ("ab".toList) (-1)) = false := by
  constructor
  · decide
  · decide

/-- C1 amended: whenever the two raw texts agree after erasing every occurrence
of the two-character space-followed-by-tab substring, operator== returns true,
whether or not the expressions compile. -/
theorem pluralFormsEq_of_eraseSpaceTab_eq (a b : PluralFormsExpr)
    (h : eraseSpaceTab a.m_expr = eraseSpaceTab b.m_expr) :
    pluralFormsEq a b = true := by
  rw [pluralFormsEq]
  by_cases he : a.m_expr = b.m_expr
  · simp [he]
  · simp [he, h]

/-- Companion witness exercising the amended C1 theorem on two texts that do
not compile and differ exactly by one space-tab pair. -/
theorem pluralFormsEq_of_eraseSpaceTab_eq_witness :
    eraseSpaceTab (PluralFormsExpr.ofExpr ("x \ty".toList) (-1)).m_expr
      = eraseSpaceTab (PluralFormsExpr.ofExpr ("xy".toList) (-1)).m_expr
    ∧ pluralFormsEq (PluralFormsExpr.ofExpr ("x \ty".toList) (-1))
        (PluralFormsExpr.ofExpr ("xy".toList) (-1)) = true :=
  ⟨by decide, pluralFormsEq_of_eraseSpaceTab_eq _ _ (by decide)⟩

/-- C2: evaluation of the code at the claimed example. A freshly constructed
PluralFormsExpr on the standard English header reports nplurals -1, not 2: the
calculator has not been created yet and regex_match demands that the whole text
match the anchored nplurals regex, while the prefix reading the spec describes
would give 2; the three evaluation results are as the claim states. -/
theorem nplurals_fresh_header_example :
    (PluralFormsExpr.ofExpr ("nplurals=2; plural=(n != 1);".toList) (-1)).nplurals = -1
    ∧ npluralsPrefixMatch ("nplurals=2; plural=(n != 1);".toList) = some 2
    ∧ (PluralFormsExpr.ofExpr ("nplurals=2; plural=(n != 1);".toList) (-1)).evaluateForN 0 = 1
    ∧ (PluralFormsExpr.ofExpr ("nplurals=2; plural=(n != 1);".toList) (-1)).evaluateForN 1 = 0
    ∧ (PluralFormsExpr.ofExpr ("nplurals=2; plural=(n != 1);".toList) (-1)).evaluateForN 2
        = 1 := by
  refine ⟨by decide, by decide, by decide, by decide, by decide⟩

/-- C4 counterexample: two instances built from the same raw text but with
different supplied cardinalities have different NPlurals yet compare equal,
because raw-text equality is checked first. -/
theorem pluralFormsEq_nplurals_counterexample :
    (PluralFormsExpr.ofExpr ("nplurals=2; plural=(n != 1);".toList) 2).nplurals
      ≠ (PluralFormsExpr.ofExpr ("nplurals=2; plural=(n != 1);".toList) 3).nplurals
    ∧ pluralFormsEq (PluralFormsExpr.ofExpr ("nplurals=2; plural=(n != 1);".toList) 2)
        (PluralFormsExpr.ofExpr ("nplurals=2; plural=(n != 1);".toList) 3) = true := by
  constructor
  · decide
  · decide

/-- C4 amended: instances whose raw texts are neither identical nor identical
after the space-tab substring erasure, and whose compiled calculators report
different plural counts, are never equal under operator==. -/
theorem pluralFormsEq_false_of_calc_nplurals_ne (a b : PluralFormsExpr)
    (h1 : a.m_expr ≠ b.m_expr)
    (h2 : eraseSpaceTab a.m_expr ≠ eraseSpaceTab b.m_expr)
    (c1 c2 : PluralFormsCalculator)
    (hc1 : a.calcValue = some c1) (hc2 : b.calcValue = some c2)
    (hne : c1.nplurals ≠ c2.nplurals) :
    pluralFormsEq a b = false := by
  rw [pluralFormsEq]
  simp [h1, h2, hc1, hc2, hne]

/-- Companion witness exercising the amended C4 theorem on two compiling
headers with plural counts 1 and 2. -/
theorem pluralFormsEq_false_of_calc_nplurals_ne_witness :
    (PluralFormsExpr.ofExpr ("nplurals=1; plural=0;".toList) (-1)).m_expr
      ≠ (PluralFormsExpr.ofExpr ("nplurals=2; plural=0;".toList) (-1)).m_expr
    ∧ pluralFormsEq (PluralFormsExpr.ofExpr ("nplurals=1; plural=0;".toList) (-1))
        (PluralFormsExpr.ofExpr ("nplurals=2; plural=0;".toList) (-1)) = false :=
  ⟨by decide,
   pluralFormsEq_false_of_calc_nplurals_ne _ _ (by decide) (by decide)
     { npl := 1, expr := PExpr.num 0 } { npl := 2, expr := PExpr.num 0 }
     (by decide) (by decide) (by decide)⟩

/-- C5: plural-forms operations are total functions in this model and degrade
rather than fail. Evaluate returns 0 for every n on any instance without a
calculator, and an instance built by the parsing constructor from an empty or
non-compiling expression has no calculator. -/
theorem pluralForms_never_raise :
    (∀ (st : PluralFormsExpr) (n : Nat), st.calcValue = none → st.evaluateForN n = 0)
    ∧ (∀ (e : List Char) (np : Int),
        e = [] ∨ PluralFormsCalculator.make e = none →
        (PluralFormsExpr.ofExpr e np).calcValue = none) := by
  constructor
  · intro st n h
    simp [PluralFormsExpr.evaluateForN, h]
  · intro e np h
    rcases h with h | h
    · simp [PluralFormsExpr.calcValue, PluralFormsExpr.ofExpr, h]
    · by_cases he : e = []
      · simp [PluralFormsExpr.calcValue, PluralFormsExpr.ofExpr, he]
      · simp [PluralFormsExpr.calcValue, PluralFormsExpr.ofExpr, he, h]

/-- Companion witness exercising the C5 theorem on the malformed garbage
expression from the spec examples. -/
theorem pluralForms_never_raise_witness :
    (PluralFormsExpr.ofExpr ("garbage(((".toList) (-1)).calcValue = none
    ∧ (PluralFormsExpr.ofExpr ("garbage(((".toList) (-1)).evaluateForN 5 = 0 :=
  ⟨pluralForms_never_raise.2 _ _ (Or.inr (by decide)),
   pluralForms_never_raise.1 _ 5 (pluralForms_never_raise.2 _ _ (Or.inr (by decide)))⟩

/-
Language::TryGuessFromFilename. Path handling uses slash-separated components;
MakeAbsolute is modelled by prepending the working-directory components to a
relative path (its dot-segment normalization is not modelled, the guessing
logic never depends on it). The stem is the last component up to its last dot,
as wxFileName GetName computes it.
-/

/-- Components of a slash-separated path. -/
def splitOnSlash : List Char → List (List Char)
  | [] => [[]]
  | '/' :: r => [] :: splitOnSlash r
  | c :: r =>
    match splitOnSlash r with
    | [] => [[c]]
    | g :: gs => (c :: g) :: gs

/-- Directory components after MakeAbsolute: everything before the last
component, with the working directory prepended when the path is relative. -/
def pathDirs (cwd : List (List Char)) (path : List Char) : List (List Char) :=
  if path.head? = some '/' then ((splitOnSlash path).dropLast).drop 1
  else cwd ++ (splitOnSlash path).dropLast

/-- Last path component. -/
def pathFullName (path : List Char) : List Char :=
  (splitOnSlash path).getLastD []

/-- Filename stem: the last component with the extension after its last dot
removed, as wxFileName GetName computes it. -/
def pathStem (path : List Char) : List Char :=
  match rfindIdx '.' (pathFullName path) with
  | none => pathFullName path
  | some i => (pathFullName path).take i

/-- Delimiters of the stem-suffix scan in TryGuessFromFilename. -/
def isStemDelim (c : Char) : Bool := c = '.' || c = '-' || c = '_'

/-- Suffix scan of TryGuessFromFilename, lines 552-560 of language.cpp: at each
delimiter occurrence from left to right, try the suffix after it and return the
first valid language. -/
def guessSuffixLoop (tp : List Char → List Char) : List Char → List Char
  | [] => []
  | c :: rest =>
    if isStemDelim c then
      if tp rest ≠ [] then tp rest else guessSuffixLoop tp rest
    else guessSuffixLoop tp rest

/-- The literal LC_MESSAGES directory name skipped by the directory step. -/
def lcMessages : List Char := "LC_MESSAGES".toList

/-- Case-insensitive ASCII comparison, as wxString IsSameAs without case. -/
def eqCaseInsensitiveA (a b : List Char) : Bool := a.map tolowerA = b.map tolowerA

/-- The lproj suffix stripped from bundle-style directory names. -/
def lprojSuffix : List Char := ".lproj".toList

/-- Directory candidate of TryGuessFromFilename, lines 562-576 of language.cpp,
on the reversed directory list: skip a literal LC_MESSAGES innermost segment,
then strip a lproj suffix from the chosen component. -/
def dirCandidate : List (List Char) → Option (List Char)
  | [] => none
  | d :: ds =>
    if eqCaseInsensitiveA d lcMessages then
      match ds with
      | [] => none
      | d2 :: _ =>
        some (if lprojSuffix.isSuffixOf d2 then d2.take (d2.length - 6) else d2)
    else
      some (if lprojSuffix.isSuffixOf d then d.take (d.length - 6) else d)

/-- Language::TryGuessFromFilename from language.cpp lines 538-579, with the
validating parser passed in as tp: the bare stem, then the suffix scan, then
the directory candidate. -/
def tryGuessFromFilename (tp : List Char → List Char) (cwd : List (List Char))
    (path : List Char) : List Char :=
  if tp (pathStem path) ≠ [] then tp (pathStem path)
  else if guessSuffixLoop tp (pathStem path) ≠ [] then guessSuffixLoop tp (pathStem path)
  else
    match dirCandidate ((pathDirs cwd path).reverse) with
    | none => []
    | some d => tp d

/-- Suffix candidates of a stem: for each delimiter occurrence from left to
right, the suffix after it, written as an explicit list the way the spec
enumerates the heuristic chain. -/
def suffixCandidates : List Char → List (List Char)
  | [] => []
  | c :: rest =>
    if isStemDelim c then rest :: suffixCandidates rest else suffixCandidates rest

/-- Candidate list of the heuristic written the way the spec enumerates it: the
bare stem, every suffix from each delimiter, then the directory candidate. -/
def specGuessCandidates (cwd : List (List Char)) (path : List Char) : List (List Char) :=
  pathStem path
    :: (suffixCandidates (pathStem path)
        ++ (match dirCandidate ((pathDirs cwd path).reverse) with
            | some d => [d]
            | none => []))

/-- First candidate that the validating parser accepts, else invalid. -/
def firstValidCandidate (tp : List Char → List Char) : List (List Char) → List Char
  | [] => []
  | c :: cs => if tp c ≠ [] then tp c else firstValidCandidate tp cs

theorem guessSuffixLoop_eq_firstValid (tp : List Char → List Char) (s : List Char) :
    guessSuffixLoop tp s = firstValidCandidate tp (suffixCandidates s) := by
  induction s with
  | nil => rfl
  | cons c cs ih =>
    by_cases h : isStemDelim c = true
    · simp only [guessSuffixLoop, suffixCandidates, h, if_true, firstValidCandidate, ih]
    · simp only [Bool.not_eq_true] at h
      simp only [guessSuffixLoop, suffixCandidates, h, Bool.false_eq_true, if_false, ih]

theorem firstValidCandidate_append (tp : List Char → List Char)
    (xs ys : List (List Char)) :
    firstValidCandidate tp (xs ++ ys)
      = if firstValidCandidate tp xs ≠ [] then firstValidCandidate tp xs
        else firstValidCandidate tp ys := by
  induction xs with
  | nil => simp [firstValidCandidate]
  | cons a as ih =>
    by_cases h : tp a = []
    · simp [firstValidCandidate, h, ih]
    · simp [firstValidCandidate, h]

/-- C8: TryGuessFromFilename tries, in order, the bare filename stem, then for
each delimiter occurrence in the stem from left to right the suffix after it,
then the innermost directory component with a literal LC_MESSAGES segment
skipped and a lproj suffix stripped, each candidate checked with
TryParseWithValidation, returning the first valid match and the invalid
language otherwise; in particular the two spec examples resolve to cs_CZ and
fr whenever the ISO tables accept cs, CZ and fr and the heuristic rejects the
two stems, as the real locale database does. -/
theorem tryGuessFromFilename_order_and_examples
    (names namesEng : List Char → Option (List Char))
    (fold : List Char → List Char)
    (fromTag : List Char → Option (List Char))
    (isoLang isoCountry : List Char → Bool)
    (cwd : List (List Char))
    (hstem1 : tryParseWithValidation names namesEng fold fromTag isoLang isoCountry
        ("app-cs_CZ".toList) = [])
    (hstem2 : tryParseWithValidation names namesEng fold fromTag isoLang isoCountry
        ("strings".toList) = [])
    (hcs : isoLang ("cs".toList) = true) (hCZ : isoCountry ("CZ".toList) = true)
    (hfr : isoLang ("fr".toList) = true) :
    (∀ (tp : List Char → List Char) (cwd2 : List (List Char)) (path : List Char),
        tryGuessFromFilename tp cwd2 path
          = firstValidCandidate tp (specGuessCandidates cwd2 path))
    ∧ tryGuessFromFilename
        (tryParseWithValidation names namesEng fold fromTag isoLang isoCountry) cwd
        ("app-cs_CZ.po".toList) = "cs_CZ".toList
    ∧ tryGuessFromFilename
        (tryParseWithValidation names namesEng fold fromTag isoLang isoCountry) cwd
        ("locales/fr.lproj/strings".toList) = "fr".toList := by
  refine ⟨?_, ?_, ?_⟩
  · intro tp cwd2 path
    by_cases h1 : tp (pathStem path) = []
    · by_cases h2 : guessSuffixLoop tp (pathStem path) = []
      · have h2x : firstValidCandidate tp (suffixCandidates (pathStem path)) = [] := by
          rw [← guessSuffixLoop_eq_firstValid]
          exact h2
        cases hd : dirCandidate ((pathDirs cwd2 path).reverse) with
        | none =>
          simp [tryGuessFromFilename, specGuessCandidates, firstValidCandidate,
            firstValidCandidate_append, h1, h2, h2x, hd]
        | some d =>
          by_cases h3 : tp d = []
          · simp [tryGuessFromFilename, specGuessCandidates, firstValidCandidate,
              firstValidCandidate_append, h1, h2, h2x, hd, h3]
          · simp [tryGuessFromFilename, specGuessCandidates, firstValidCandidate,
              firstValidCandidate_append, h1, h2, h2x, hd, h3]
      · have h2x : firstValidCandidate tp (suffixCandidates (pathStem path)) ≠ [] := by
          rw [← guessSuffixLoop_eq_firstValid]
          exact h2
        simp [tryGuessFromFilename, specGuessCandidates, firstValidCandidate,
          firstValidCandidate_append, guessSuffixLoop_eq_firstValid, h1, h2x]
    · simp [tryGuessFromFilename, specGuessCandidates, firstValidCandidate, h1]
  · have e_stem : pathStem ("app-cs_CZ.po".toList) = "app-cs_CZ".toList := by decide
    have h2 : tryParse names namesEng fold fromTag ("cs_CZ".toList) = "cs_CZ".toList := rfl
    have hvcs : tryParseWithValidation names namesEng fold fromTag isoLang isoCountry
        ("cs_CZ".toList) = "cs_CZ".toList := by
      rw [tryParseWithValidation_spec, h2]
      have hlcs : langOf ("cs_CZ".toList) = "cs".toList := by decide
      have hccs : countryOf ("cs_CZ".toList) = "CZ".toList := by decide
      rw [hlcs, hccs]
      rw [if_pos ⟨by decide, hcs, Or.inr hCZ⟩]
    have e_suf : suffixCandidates ("app-cs_CZ".toList)
        = ["cs_CZ".toList, "CZ".toList] := by decide
    have e_loop : guessSuffixLoop
        (tryParseWithValidation names namesEng fold fromTag isoLang isoCountry)
        ("app-cs_CZ".toList) = "cs_CZ".toList := by
      rw [guessSuffixLoop_eq_firstValid, e_suf]
      simp only [firstValidCandidate]
      rw [hvcs]
      rw [if_pos (show ("cs_CZ".toList : List Char) ≠ [] by decide)]
    rw [tryGuessFromFilename, e_stem, hstem1, e_loop]
    rw [if_neg (by simp), if_pos (show ("cs_CZ".toList : List Char) ≠ [] by decide)]
  · have e_stem : pathStem ("locales/fr.lproj/strings".toList) = "strings".toList := by
      decide
    have e_suf : suffixCandidates ("strings".toList) = [] := by decide
    have e_loop : guessSuffixLoop
        (tryParseWithValidation names namesEng fold fromTag isoLang isoCountry)
        ("strings".toList) = [] := by
      rw [guessSuffixLoop_eq_firstValid, e_suf]
      rfl
    have h2 : tryParse names namesEng fold fromTag ("fr".toList) = "fr".toList := rfl
    have hvfr : tryParseWithValidation names namesEng fold fromTag isoLang isoCountry
        ("fr".toList) = "fr".toList := by
      rw [tryParseWithValidation_spec, h2]
      have hlfr : langOf ("fr".toList) = "fr".toList := by decide
      have hcfr : countryOf ("fr".toList) = [] := by decide
      rw [hlfr, hcfr]
      rw [if_pos ⟨by decide, hfr, Or.inl rfl⟩]
    have e_dirs : pathDirs cwd ("locales/fr.lproj/strings".toList)
        = cwd ++ ["locales".toList, "fr.lproj".toList] := by
      rw [pathDirs, if_neg (by decide)]
      rw [show (splitOnSlash ("locales/fr.lproj/strings".toList)).dropLast
          = ["locales".toList, "fr.lproj".toList] from by decide]
    have e_rev : (cwd ++ ["locales".toList, "fr.lproj".toList]).reverse
        = "fr.lproj".toList :: "locales".toList :: cwd.reverse := by
      rw [List.reverse_append]
      rfl
    have e_dc : dirCandidate ("fr.lproj".toList :: "locales".toList :: cwd.reverse)
        = some ("fr".toList) := rfl
    rw [tryGuessFromFilename, e_stem, hstem2, e_loop]
    rw [if_neg (by simp), if_neg (by simp), e_dirs, e_rev, e_dc]
    exact hvfr

/-- Companion witness exercising the C8 theorem with a concrete locale
database: empty display-name indices, no BCP-47 parses, and ISO tables
accepting exactly cs, fr and CZ. -/
theorem tryGuessFromFilename_witness :
    tryParseWithValidation (fun _ => none) (fun _ => none) id (fun _ => none)
        (fun s => s = "cs".toList || s = "fr".toList) (fun s => s = "CZ".toList)
        ("app-cs_CZ".toList) = []
    ∧ tryParseWithValidation (fun _ => none) (fun _ => none) id (fun _ => none)
        (fun s => s = "cs".toList || s = "fr".toList) (fun s => s = "CZ".toList)
        ("strings".toList) = []
    ∧ tryGuessFromFilename
        (tryParseWithValidation (fun _ => none) (fun _ => none) id (fun _ => none)
          (fun s => s = "cs".toList || s = "fr".toList) (fun s => s = "CZ".toList))
        [] ("app-cs_CZ.po".toList) = "cs_CZ".toList
    ∧ tryGuessFromFilename
        (tryParseWithValidation (fun _ => none) (fun _ => none) id (fun _ => none)
          (fun s => s = "cs".toList || s = "fr".toList) (fun s => s = "CZ".toList))
        [] ("locales/fr.lproj/strings".toList) = "fr".toList :=
  ⟨by decide, by decide,
   (tryGuessFromFilename_order_and_examples (fun _ => none) (fun _ => none) id
      (fun _ => none) (fun s => s = "cs".toList || s = "fr".toList)
      (fun s => s = "CZ".toList) [] (by decide) (by decide) (by decide) (by decide)
      (by decide)).2.1,
   (tryGuessFromFilename_order_and_examples (fun _ => none) (fun _ => none) id
      (fun _ => none) (fun s => s = "cs".toList || s = "fr".toList)
      (fun s => s = "CZ".toList) [] (by decide) (by decide) (by decide) (by decide)
      (by decide)).2.2⟩

end Poedit
